import Mathlib

/-!
Verification of the Camarilla monthly screener, in its two variants:
the CLI script `nifty500.py` and the Flet app `nifty500_app.py`.

Modelling conventions:
* machine floats are modelled as rationals (`ℚ`);
* Python's built-in `round` (banker's rounding) is `roundHalfEven`,
  and `round(x, 2)` is `roundTo2`;
* a raised exception is an `Except` error value;
* Python's stable `list.sort` is an insertion sort `sortLe`;
* the iteration order of a Python `set` is an explicit enumeration
  function constrained only by the set contract (`SetEnum`).
-/

/-- Python's built-in `round` to an integer (round half to even), over ℚ.
`round(float('nan'))` raising is modelled separately by `pyRoundNan`. -/
def roundHalfEven (q : ℚ) : ℤ :=
  if q - ⌊q⌋ < 1/2 then ⌊q⌋
  else if 1/2 < q - ⌊q⌋ then ⌊q⌋ + 1
  else if ⌊q⌋ % 2 = 0 then ⌊q⌋ else ⌊q⌋ + 1

/-- Python's `round(x, 2)`: round half to even at two decimal places. -/
def roundTo2 (q : ℚ) : ℚ := (roundHalfEven (q * 100) : ℚ) / 100

theorem roundHalfEven_le (q : ℚ) : (roundHalfEven q : ℚ) ≤ q + 1/2 := by
  have h1 := Int.floor_le q
  have h2 := Int.lt_floor_add_one q
  unfold roundHalfEven
  split_ifs <;> push_cast <;> linarith

theorem le_roundHalfEven (q : ℚ) : q - 1/2 ≤ (roundHalfEven q : ℚ) := by
  have h1 := Int.floor_le q
  have h2 := Int.lt_floor_add_one q
  unfold roundHalfEven
  split_ifs <;> push_cast <;> linarith

theorem roundHalfEven_mono {a b : ℚ} (hab : a ≤ b) :
    roundHalfEven a ≤ roundHalfEven b := by
  by_contra hlt
  push_neg at hlt
  have h1 : (roundHalfEven b : ℚ) + 1 ≤ (roundHalfEven a : ℚ) := by
    exact_mod_cast Int.add_one_le_iff.mpr hlt
  have h2 := roundHalfEven_le a
  have h3 := le_roundHalfEven b
  have hba : b ≤ a := by linarith
  have heq : a = b := le_antisymm hab hba
  subst heq
  exact absurd hlt (lt_irrefl _)

theorem roundHalfEven_intCast (n : ℤ) : roundHalfEven (n : ℚ) = n := by
  unfold roundHalfEven
  rw [Int.floor_intCast]
  norm_num

/-- A calendar timestamp.  Both variants only ever consult the calendar
fields of a bar's period timestamp. -/
structure MDate where
  year : ℕ
  month : ℕ
  day : ℕ
deriving DecidableEq, Repr

/-- Chronological comparison of timestamps (lexicographic year, month, day). -/
def dateLe (a b : MDate) : Bool :=
  a.year < b.year ||
    (a.year == b.year &&
      (a.month < b.month || (a.month == b.month && a.day ≤ b.day)))

/-- The current-month test shared by both variants:
`idx.month == now_ts.month and idx.year == now_ts.year`. -/
def sameYM (d now : MDate) : Bool :=
  d.month == now.month && d.year == now.year

/-- One monthly OHLC bar.  A price field holds `none` when the value is
missing or NaN (the CLI's `row.get("High", float("nan"))` default). -/
structure BarRow where
  date : MDate
  highF : Option ℚ
  lowF : Option ℚ
  openF : Option ℚ
  closeF : Option ℚ
deriving DecidableEq, Repr

/-- Insertion step of a stable insertion sort: `x` goes in front of the
first element that is not strictly smaller. -/
def insertLe {α : Type*} (le : α → α → Bool) (x : α) : List α → List α
  | [] => [x]
  | y :: ys => if le x y then x :: y :: ys else y :: insertLe le x ys

/-- Stable sort.  Models Python's stable `list.sort(key=...)` (app variant)
and the chronologically sorted frame `monthly_df.sort_index()` (CLI). -/
def sortLe {α : Type*} (le : α → α → Bool) (l : List α) : List α :=
  l.foldr (insertLe le) []

theorem insertLe_perm {α : Type*} (le : α → α → Bool) (x : α) (l : List α) :
    (insertLe le x l).Perm (x :: l) := by
  induction l with
  | nil => rfl
  | cons y ys ih =>
    by_cases h : le x y = true
    · simp [insertLe, h]
    · simp only [insertLe, if_neg h]
      exact (ih.cons y).trans (List.Perm.swap x y ys)

theorem sortLe_perm {α : Type*} (le : α → α → Bool) (l : List α) :
    (sortLe le l).Perm l := by
  induction l with
  | nil => rfl
  | cons a l ih => exact (insertLe_perm le a (sortLe le l)).trans (ih.cons a)

theorem mem_insertLe {α : Type*} {le : α → α → Bool} {x z : α} {l : List α} :
    z ∈ insertLe le x l ↔ z = x ∨ z ∈ l := by
  rw [(insertLe_perm le x l).mem_iff]
  simp

theorem insertLe_pairwise {α : Type*} {le : α → α → Bool}
    (htot : ∀ a b, le a b = true ∨ le b a = true)
    (htrans : ∀ a b c, le a b = true → le b c = true → le a c = true)
    (x : α) {l : List α} (hl : l.Pairwise (fun a b => le a b = true)) :
    (insertLe le x l).Pairwise (fun a b => le a b = true) := by
  induction l with
  | nil => simp [insertLe]
  | cons y ys ih =>
    rcases List.pairwise_cons.mp hl with ⟨hy, hys⟩
    by_cases h : le x y = true
    · simp only [insertLe, if_pos h]
      refine List.pairwise_cons.mpr ⟨?_, hl⟩
      intro z hz
      rcases List.mem_cons.mp hz with rfl | hz
      · exact h
      · exact htrans x y z h (hy z hz)
    · simp only [insertLe, if_neg h]
      refine List.pairwise_cons.mpr ⟨?_, ih hys⟩
      intro z hz
      rcases mem_insertLe.mp hz with rfl | hz
      · rcases htot z y with hxy | hyx
        · exact absurd hxy h
        · exact hyx
      · exact hy z hz

theorem sortLe_pairwise {α : Type*} {le : α → α → Bool}
    (htot : ∀ a b, le a b = true ∨ le b a = true)
    (htrans : ∀ a b c, le a b = true → le b c = true → le a c = true)
    (l : List α) : (sortLe le l).Pairwise (fun a b => le a b = true) := by
  induction l with
  | nil => simp [sortLe]
  | cons a l ih => exact insertLe_pairwise htot htrans a ih

theorem sortLe_eq_self {α : Type*} {le : α → α → Bool} {l : List α}
    (hl : l.Pairwise (fun a b => le a b = true)) : sortLe le l = l := by
  induction l with
  | nil => rfl
  | cons a l ih =>
    rcases List.pairwise_cons.mp hl with ⟨ha, hl2⟩
    show insertLe le a (sortLe le l) = a :: l
    rw [ih hl2]
    cases l with
    | nil => rfl
    | cons b bs =>
      have hab : le a b = true := ha b (by simp)
      simp [insertLe, hab]

theorem insertLe_filter {α : Type*} {le : α → α → Bool} {p : α → Bool}
    (hcomp : ∀ a b, le a b = false → p a = true → p b = false)
    (x : α) (l : List α) :
    (insertLe le x l).filter p =
      if p x then x :: l.filter p else l.filter p := by
  induction l with
  | nil => by_cases hx : p x = true <;> simp [insertLe, List.filter, hx]
  | cons y ys ih =>
    by_cases h : le x y = true
    · simp only [insertLe, if_pos h]
      by_cases hx : p x = true <;> simp [List.filter_cons, hx]
    · simp only [insertLe, if_neg h]
      have h' : le x y = false := by simpa using h
      by_cases hx : p x = true
      · have hy : p y = false := hcomp x y h' hx
        simp [List.filter_cons, hx, hy, ih]
      · have hx' : p x = false := by simpa using hx
        by_cases hy : p y = true <;> simp [List.filter_cons, hx', hy, ih]

theorem sortLe_filter_stable {α : Type*} {le : α → α → Bool} {p : α → Bool}
    (hcomp : ∀ a b, le a b = false → p a = true → p b = false)
    (l : List α) : (sortLe le l).filter p = l.filter p := by
  induction l with
  | nil => rfl
  | cons a l ih =>
    show (insertLe le a (sortLe le l)).filter p = _
    rw [insertLe_filter hcomp]
    by_cases ha : p a = true <;> simp [List.filter_cons, ha, ih]

/-- `CAM_MULT = 1.1`, the Camarilla expansion factor of both variants. -/
def CAM_MULT : ℚ := 11/10

/-- `compute_r3_s3` of `nifty500.py`:
`diff = high - low`, `r3 = close + diff * cam_mult / 4.0`,
`s3 = close - diff * cam_mult / 4.0`. -/
def compute_r3_s3 (high low close : ℚ) (cam_mult : ℚ := CAM_MULT) : ℚ × ℚ :=
  (close + (high - low) * cam_mult / 4, close - (high - low) * cam_mult / 4)

/-- The R3 formula inlined in `process_ticker` of `nifty500_app.py`:
`r3 = c + (diff * CAM_MULT / 4.0)` with `diff = h - l`. -/
def app_r3 (h l c : ℚ) : ℚ := c + (h - l) * CAM_MULT / 4

/-- The S3 formula inlined in `process_ticker` of `nifty500_app.py`. -/
def app_s3 (h l c : ℚ) : ℚ := c - (h - l) * CAM_MULT / 4

/-- `last_completed_month_row` of `nifty500.py`: sort chronologically, drop
the bars of the reference month, return the last remaining bar; if none
remain, fall back to the second-to-last bar when at least two exist. -/
def lastCompletedMonthRow (monthly_df : List BarRow) (now : MDate) :
    Option BarRow :=
  if monthly_df.isEmpty then none
  else
    let monthly := sortLe (fun a b => dateLe a.date b.date) monthly_df
    let completed := monthly.filter fun b => !(sameYM b.date now)
    if completed.isEmpty then
      if 2 ≤ monthly.length then monthly.dropLast.getLast? else none
    else completed.getLast?

/-- The bar selection of `process_ticker` in `nifty500_app.py`: sort the
candles by date, then iterate backward and break at the first candle whose
calendar (year, month) differs from the reference; `None` when no candle
differs. -/
def appSelectPrevMonth (candles : List BarRow) (now : MDate) : Option BarRow :=
  let sorted := sortLe (fun a b => dateLe a.date b.date) candles
  sorted.reverse.find? fun c => !(sameYM c.date now)

/-- The Period Selector as the spec words it (spec-side definition, for
comparison with the source functions): scanning from the most recent bar
backward, the first bar of a different calendar month than the reference;
if every bar matches and at least two exist, the second-to-last bar;
otherwise no completed period. -/
def periodSelectorSpec (bars : List BarRow) (now : MDate) : Option BarRow :=
  match bars.reverse.find? (fun b => !(sameYM b.date now)) with
  | some b => some b
  | none => if 2 ≤ bars.length then bars.dropLast.getLast? else none

theorem filter_getLast?_eq_find?_reverse {α : Type*} (p : α → Bool)
    (l : List α) : (l.filter p).getLast? = l.reverse.find? p := by
  induction l using List.reverseRecOn with
  | nil => rfl
  | append_singleton xs a ih =>
    rw [List.filter_append, List.reverse_append]
    cases ha : p a
    · have h1 : List.filter p [a] = [] := by simp [ha]
      rw [h1, List.append_nil]
      simp [List.find?_cons, ha, ih]
    · have h1 : List.filter p [a] = [a] := by simp [ha]
      rw [h1, List.getLast?_concat]
      simp [List.find?_cons, ha]

/-- Outcome of one provider request attempt inside a fetcher. -/
inductive FetchAttempt where
  | raises
  | empty
  | ok (df : List BarRow)
deriving DecidableEq, Repr

/-- The retry loop of `fetch_monthly_df`
(`for attempt in range(max_retries + 1)`): `i` is the current attempt
index, the second argument the number of attempts left.  Returns the
fetched frame (or `none`) together with the list of back-off sleeps
performed (`time.sleep(1 + attempt)` in the `except` branch). -/
def fetchGo (attempts : ℕ → FetchAttempt) :
    ℕ → ℕ → Option (List BarRow) × List ℕ
  | _, 0 => (none, [])
  | i, fuel + 1 =>
    match attempts i with
    | .raises =>
      let r := fetchGo attempts (i + 1) fuel
      (r.1, (1 + i) :: r.2)
    | .empty => (none, [])
    | .ok df => (some df, [])

/-- `fetch_monthly_df` of `nifty500.py`: up to `max_retries + 1` attempts;
a raised exception sleeps `1 + attempt` seconds and retries; a `None` or
empty frame returns `None` immediately, without retrying; after the loop
ends, `None`. -/
def fetch_monthly_df (attempts : ℕ → FetchAttempt) (max_retries : ℕ := 2) :
    Option (List BarRow) × List ℕ :=
  fetchGo attempts 0 (max_retries + 1)

/-- `get_yahoo_data_pure` of `nifty500_app.py`: a single attempt; any
raised exception and any payload without usable content yield `None`;
candles whose close is missing are dropped during parsing. -/
def get_yahoo_data_pure (attempt : FetchAttempt) : Option (List BarRow) :=
  match attempt with
  | .raises => none
  | .empty => none
  | .ok candles => some (candles.filter fun c => c.closeF.isSome)

/-- Structural `str.upper` (character by character, as CPython does for
ASCII tickers). -/
def upperStr (s : String) : String := ⟨s.data.map Char.toUpper⟩

/-- Structural `str.strip`. -/
def trimStr (s : String) : String :=
  ⟨((s.data.dropWhile Char.isWhitespace).reverse.dropWhile
      Char.isWhitespace).reverse⟩

/-- Structural `str.endswith`. -/
def strEndsWith (s suf : String) : Bool := suf.data.isSuffixOf s.data

/-- The symbol normalization loop shared verbatim by both variants: strip,
uppercase, skip empty and literal NaN cells, and append the `.NS` suffix
unless the symbol already ends in `.NS` or `.BO`. -/
def normalizeSymbols : List String → List String
  | [] => []
  | s :: rest =>
    let u := upperStr (trimStr s)
    if u = "" ∨ u = "NAN" then normalizeSymbols rest
    else if strEndsWith u ".NS" || strEndsWith u ".BO" then
      u :: normalizeSymbols rest
    else (u ++ ".NS") :: normalizeSymbols rest

/-- The seen-set loop of `fetch_nifty500_symbols` in `nifty500.py`
(`if t not in seen: seen.add(t); out.append(t)`). -/
def dedupSeen (seen : List String) : List String → List String
  | [] => []
  | t :: ts =>
    if t ∈ seen then dedupSeen seen ts else t :: dedupSeen (t :: seen) ts

/-- `fetch_nifty500_symbols` of `nifty500.py`, applied to the extracted
symbol-column cells: normalize, then dedupe preserving order. -/
def fetch_nifty500_symbols (cells : List String) : List String :=
  dedupSeen [] (normalizeSymbols cells)

/-- First-seen-order deduplication as the spec words it (spec-side
definition, for comparison with the source functions). -/
def specDedupFirstSeen (xs : List String) : List String :=
  xs.foldl (fun acc x => if x ∈ acc then acc else acc ++ [x]) []

/-- The contract of a Python `set`'s iteration order over strings: some
duplicate-free enumeration of the elements, with no order guarantee
(CPython string hashing is even randomized per process). -/
def SetEnum (enum : List String → List String) : Prop :=
  ∀ xs, (enum xs).Nodup ∧ ∀ y, y ∈ enum xs ↔ y ∈ xs

/-- The hardcoded fallback universe of `fetch_nifty500_symbols` in
`nifty500_app.py`. -/
def APP_FALLBACK : List String :=
  ["RELIANCE.NS", "TCS.NS", "INFY.NS", "HDFCBANK.NS"]

/-- `fetch_nifty500_symbols` of `nifty500_app.py`: on any fetch or parse
exception, return the fallback list `so app is usable`; otherwise
`list(set(yahoo_symbols))`, the set's enumeration order being `enum`. -/
def fetch_nifty500_symbols_app (fetched : Except Unit (List String))
    (enum : List String → List String) : List String :=
  match fetched with
  | .error _ => APP_FALLBACK
  | .ok cells => enum (normalizeSymbols cells)

/-- Lines 132–137 of `main` in `nifty500.py`: a failed symbol fetch prints
an error and returns exit code 1; otherwise the run proceeds on the
resolved universe. -/
def cliResolveUniverse (fetched : Except Unit (List String)) :
    Except ℕ (List String) :=
  match fetched with
  | .error _ => .error 1
  | .ok cells => .ok (fetch_nifty500_symbols cells)

/-- The success record built by `process_ticker` of `nifty500_app.py`. -/
structure AppResult where
  ticker : String
  r3 : ℚ
  s3 : ℚ
  pct_range : ℚ
  close : ℚ
deriving DecidableEq, Repr

/-- The pivot tail of `process_ticker` (after bar selection): from the
selected bar's h/l/c and the latest candle's close, `None` when
`s3 == 0`, else the record with `r3`, `s3`, `pct_range` and the close all
rounded to two decimal places. -/
def appProcessPivot (ticker : String) (h l c lastClose : ℚ) :
    Option AppResult :=
  let r3 := app_r3 h l c
  let s3 := app_s3 h l c
  if s3 = 0 then none
  else
    let pr := (r3 - s3) / s3 * 100
    some ⟨ticker, roundTo2 r3, roundTo2 s3, roundTo2 pr, roundTo2 lastClose⟩

/-- The retention test of `run_scan`:
`if res and res["pct_range"] < 6.5`. -/
def appRetain (res : Option AppResult) : Bool :=
  match res with
  | none => false
  | some r => decide (r.pct_range < 13/2)

/-- The percent-range value the app's filter consumes. -/
def appFilterValue (ticker : String) (h l c lastClose : ℚ) : Option ℚ :=
  (appProcessPivot ticker h l c lastClose).map fun r => r.pct_range

/-- `percent_range` as §4.4 of the spec defines it (spec-side definition,
for comparison): `(R3 - S3) / S3 * 100` from the unrounded levels,
undefined when `S3 = 0`. -/
def specPercentRange (h l c : ℚ) : Option ℚ :=
  let r3 := c + (h - l) * CAM_MULT / 4
  let s3 := c - (h - l) * CAM_MULT / 4
  if s3 = 0 then none else some ((r3 - s3) / s3 * 100)

/-- The percent-range value the CLI filter consumes (`main`, lines
173–181): h/l/c integer-rounded, r3/s3 computed then integer-rounded,
`pct_range_r3 = None` when the rounded `s3` is 0. -/
def cliFilterPct (hq lq cq : ℚ) : Option ℚ :=
  let h := roundHalfEven hq
  let l := roundHalfEven lq
  let c := roundHalfEven cq
  let p := compute_r3_s3 (h : ℚ) (l : ℚ) (c : ℚ)
  let r3 := roundHalfEven p.1
  let s3 := roundHalfEven p.2
  if s3 = 0 then none else some (((r3 : ℚ) - (s3 : ℚ)) / (s3 : ℚ) * 100)

/-- The CLI retention decision (line 183 of `main`): drop the ticker when
`pct_range_r3` is `None` or `>= 6.5`. -/
def cliRetain (hq lq cq : ℚ) : Bool :=
  match cliFilterPct hq lq cq with
  | none => false
  | some p => decide (p < 13/2)

/-- `round(float(x))` where `x` may be missing or NaN: CPython raises
`ValueError: cannot convert float NaN to integer`. -/
def pyRoundNan : Option ℚ → Except Unit ℤ
  | none => .error ()
  | some q => .ok (roundHalfEven q)

/-- The CSV row written by the CLI for one retained ticker. -/
structure OutRow where
  ym : MDate
  openI : ℤ
  highI : ℤ
  lowI : ℤ
  closeI : ℤ
  r3I : ℤ
  s3I : ℤ
  pct : ℚ
deriving DecidableEq, Repr

/-- Disposition of one ticker in the CLI main loop. -/
inductive CliOutcome where
  | errRow (reason : String)
  | filteredOut
  | success (row : OutRow)
deriving DecidableEq, Repr

/-- The rounding/pivot/filter/output tail of `main`'s per-ticker loop body,
applied to the selected row: integer rounding of the OHLC (which raises
on a missing or NaN field), pivot computation, the filter, then the
output row with `pct_range_r3` rounded to two decimals. -/
def cliProcessRow (row : BarRow) : Except Unit CliOutcome :=
  match pyRoundNan row.highF with
  | .error e => .error e
  | .ok h =>
    match pyRoundNan row.lowF with
    | .error e => .error e
    | .ok l =>
      match pyRoundNan row.openF with
      | .error e => .error e
      | .ok o =>
        match pyRoundNan row.closeF with
        | .error e => .error e
        | .ok c =>
          let p := compute_r3_s3 (h : ℚ) (l : ℚ) (c : ℚ)
          let r3 := roundHalfEven p.1
          let s3 := roundHalfEven p.2
          if s3 = 0 then .ok .filteredOut
          else
            let pct := ((r3 : ℚ) - (s3 : ℚ)) / (s3 : ℚ) * 100
            if 13/2 ≤ pct then .ok .filteredOut
            else .ok (.success ⟨row.date, o, h, l, c, r3, s3, roundTo2 pct⟩)

/-- The per-ticker body of `main`'s loop in `nifty500.py`: fetch result,
selector, then `cliProcessRow` on the selected row. -/
def cliProcessTicker (mdf : Option (List BarRow)) (now : MDate) :
    Except Unit CliOutcome :=
  match mdf with
  | none => .ok (.errRow "no_data")
  | some bars =>
    if bars.isEmpty then .ok (.errRow "no_data")
    else
      match lastCompletedMonthRow bars now with
      | none => .ok (.errRow "no_completed_month")
      | some row => cliProcessRow row

/-- The CLI main loop over the ticker universe: an uncaught exception in
one ticker's processing aborts the whole loop (there is no try/except
around the loop body in `main`). -/
def cliRun (tickers : List (String × Option (List BarRow))) (now : MDate) :
    Except Unit (List (String × CliOutcome)) :=
  match tickers with
  | [] => .ok []
  | (t, mdf) :: rest =>
    match cliProcessTicker mdf now with
    | .error e => .error e
    | .ok o =>
      match cliRun rest now with
      | .error e => .error e
      | .ok others => .ok ((t, o) :: others)

/-- Key comparison of `results.sort(key=lambda x: x["pct_range"])`. -/
def pctLe (a b : AppResult) : Bool := decide (a.pct_range ≤ b.pct_range)

/-- The ranking step of `run_scan`: Python's stable sort of the retained
results by `pct_range` alone. -/
def appSortResults (rs : List AppResult) : List AppResult := sortLe pctLe rs

theorem compute_r3_s3_bounds_aux (h l c m : ℚ) (hl : l ≤ h) (hm : 0 ≤ m) :
    (compute_r3_s3 h l c m).2 ≤ c ∧ c ≤ (compute_r3_s3 h l c m).1 := by
  have hd : 0 ≤ (h - l) * m / 4 :=
    div_nonneg (mul_nonneg (by linarith) hm) (by norm_num)
  have e1 : (compute_r3_s3 h l c m).1 = c + (h - l) * m / 4 := rfl
  have e2 : (compute_r3_s3 h l c m).2 = c - (h - l) * m / 4 := rfl
  rw [e1, e2]
  constructor <;> linarith

/-- C10: for all inputs and any multiplier, R3 + S3 = 2·close in both
variants' calculators, so the midpoint of the R3/S3 band is the close. -/
theorem pivot_symmetry (h l c m : ℚ) :
    (compute_r3_s3 h l c m).1 + (compute_r3_s3 h l c m).2 = 2 * c
      ∧ app_r3 h l c + app_s3 h l c = 2 * c := by
  refine ⟨?_, ?_⟩ <;> simp [compute_r3_s3, app_r3, app_s3] <;> ring

/-- C2: when H ≥ L and M ≥ 0 the pivot levels satisfy S3 ≤ C ≤ R3: for the
CLI calculator `compute_r3_s3`, for the app's inline formulas, for the
CLI's integer-rounded inputs, and still after the CLI rounds R3/S3 to
integers. -/
theorem pivot_r3_s3_bounds (h l c m : ℚ) (hl : l ≤ h) (hm : 0 ≤ m) :
    ((compute_r3_s3 h l c m).2 ≤ c ∧ c ≤ (compute_r3_s3 h l c m).1)
    ∧ (app_s3 h l c ≤ c ∧ c ≤ app_r3 h l c)
    ∧ ((compute_r3_s3 (roundHalfEven h : ℚ) (roundHalfEven l : ℚ)
          (roundHalfEven c : ℚ)).2 ≤ (roundHalfEven c : ℚ)
        ∧ (roundHalfEven c : ℚ) ≤ (compute_r3_s3 (roundHalfEven h : ℚ)
          (roundHalfEven l : ℚ) (roundHalfEven c : ℚ)).1)
    ∧ (roundHalfEven (compute_r3_s3 (roundHalfEven h : ℚ)
          (roundHalfEven l : ℚ) (roundHalfEven c : ℚ)).2 ≤ roundHalfEven c
        ∧ roundHalfEven c ≤ roundHalfEven (compute_r3_s3 (roundHalfEven h : ℚ)
          (roundHalfEven l : ℚ) (roundHalfEven c : ℚ)).1) := by
  have hcm : (0 : ℚ) ≤ CAM_MULT := by norm_num [CAM_MULT]
  have hlr : ((roundHalfEven l : ℚ)) ≤ ((roundHalfEven h : ℚ)) := by
    exact_mod_cast roundHalfEven_mono hl
  have hround := compute_r3_s3_bounds_aux (roundHalfEven h : ℚ)
    (roundHalfEven l : ℚ) (roundHalfEven c : ℚ) CAM_MULT hlr hcm
  refine ⟨compute_r3_s3_bounds_aux h l c m hl hm, ?_, hround, ?_, ?_⟩
  · have hd : 0 ≤ (h - l) * CAM_MULT / 4 :=
      div_nonneg (mul_nonneg (by linarith) hcm) (by norm_num)
    unfold app_r3 app_s3
    constructor <;> linarith
  · have := roundHalfEven_mono hround.1
    rwa [roundHalfEven_intCast] at this
  · have := roundHalfEven_mono hround.2
    rwa [roundHalfEven_intCast] at this

/-- Witness for C2, at the spec's own example `H=110, L=90, C=100, M=1.1`. -/
theorem pivot_r3_s3_bounds_witness :
    (compute_r3_s3 110 90 100 (11/10)).2 ≤ 100
      ∧ (100 : ℚ) ≤ (compute_r3_s3 110 90 100 (11/10)).1 :=
  (pivot_r3_s3_bounds 110 90 100 (11/10) (by norm_num) (by norm_num)).1

/-- C1 (amended): on a chronologically ordered bar sequence the CLI
selector `last_completed_month_row` agrees with the spec's Period
Selector (backward scan, second-to-last fallback) and returns `none`
exactly on an empty input or a single bar of the reference month; the app
variant's selector lacks the fallback and returns `none` whenever every
bar matches the reference month. -/
theorem period_selector_characterization (bars : List BarRow) (now : MDate)
    (hs : bars.Pairwise fun a b => dateLe a.date b.date = true) :
    lastCompletedMonthRow bars now = periodSelectorSpec bars now
    ∧ (lastCompletedMonthRow bars now = none ↔
        bars = [] ∨ (bars.length = 1 ∧ ∀ b ∈ bars, sameYM b.date now = true))
    ∧ ((∀ b ∈ bars, sameYM b.date now = true) →
        appSelectPrevMonth bars now = none) := by
  have hsort : sortLe (fun a b => dateLe a.date b.date) bars = bars :=
    sortLe_eq_self hs
  have hfl := filter_getLast?_eq_find?_reverse
    (fun b => !(sameYM b.date now)) bars
  by_cases hb : bars = []
  · subst hb
    exact ⟨rfl, by simp [lastCompletedMonthRow], fun _ => rfl⟩
  · have hbe : bars.isEmpty = false := by
      cases bars with
      | nil => exact absurd rfl hb
      | cons x xs => rfl
    refine ⟨?_, ?_, ?_⟩
    · unfold lastCompletedMonthRow periodSelectorSpec
      simp only [hbe, Bool.false_eq_true, if_false, hsort]
      rw [← hfl]
      cases hc : (bars.filter fun b => !(sameYM b.date now)).getLast? with
      | none =>
        have hce : bars.filter (fun b => !(sameYM b.date now)) = [] :=
          List.getLast?_eq_none_iff.mp hc
        simp [hce]
      | some b =>
        have hne : (bars.filter fun b => !(sameYM b.date now)).isEmpty
            = false := by
          cases hcc : bars.filter fun b => !(sameYM b.date now) with
          | nil => rw [hcc] at hc; exact absurd hc (by simp)
          | cons x xs => rfl
        simp [hne, hc]
    · unfold lastCompletedMonthRow
      simp only [hbe, Bool.false_eq_true, if_false, hsort]
      by_cases hcf : bars.filter (fun b => !(sameYM b.date now)) = []
      · have hall : ∀ b ∈ bars, sameYM b.date now = true := by
          intro b hbm
          have := List.filter_eq_nil_iff.mp hcf b hbm
          simpa using this
        simp only [hcf, List.isEmpty_nil, if_true]
        by_cases hlen : 2 ≤ bars.length
        · have hdl : bars.dropLast ≠ [] := by
            intro hh
            have hlen2 := congrArg List.length hh
            rw [List.length_dropLast] at hlen2
            simp only [List.length_nil] at hlen2
            omega
          obtain ⟨z, hz⟩ : ∃ z, bars.dropLast.getLast? = some z := by
            cases hgl : bars.dropLast.getLast? with
            | none => exact absurd (List.getLast?_eq_none_iff.mp hgl) hdl
            | some z => exact ⟨z, rfl⟩
          rw [if_pos hlen, hz]
          constructor
          · intro hco
            exact absurd hco (by simp)
          · rintro (hco | ⟨h1, _⟩)
            · exact absurd hco hb
            · omega
        · rw [if_neg hlen]
          have h0 : bars.length ≠ 0 := by
            intro hh
            exact hb (List.length_eq_zero.mp hh)
          have h1 : bars.length = 1 := by omega
          constructor
          · intro _
            exact Or.inr ⟨h1, hall⟩
          · intro _
            rfl
      · have hne : (bars.filter fun b => !(sameYM b.date now)).isEmpty
            = false := by
          cases hcc : bars.filter fun b => !(sameYM b.date now) with
          | nil => exact absurd hcc hcf
          | cons x xs => rfl
        simp only [hne, Bool.false_eq_true, if_false]
        rw [List.getLast?_eq_none_iff]
        constructor
        · intro hh
          exact absurd hh hcf
        · rintro (hco | ⟨h1, hall⟩)
          · exact absurd hco hb
          · exact absurd
              (List.filter_eq_nil_iff.mpr fun b hbm => by simp [hall b hbm])
              hcf
    · intro hall
      unfold appSelectPrevMonth
      simp only [hsort]
      apply List.find?_eq_none.mpr
      intro x hx
      have hxb : x ∈ bars := List.mem_reverse.mp hx
      simp [hall x hxb]

/-- Witness for C1 at a two-bar May/June 2024 history with reference
2024-06-15: the hypotheses hold and the CLI selector agrees with the
spec's backward scan. -/
theorem period_selector_characterization_witness :
    lastCompletedMonthRow
        [⟨⟨2024, 5, 31⟩, some 1, some 1, some 1, some 1⟩,
         ⟨⟨2024, 6, 30⟩, some 2, some 2, some 2, some 2⟩] ⟨2024, 6, 15⟩ =
      periodSelectorSpec
        [⟨⟨2024, 5, 31⟩, some 1, some 1, some 1, some 1⟩,
         ⟨⟨2024, 6, 30⟩, some 2, some 2, some 2, some 2⟩] ⟨2024, 6, 15⟩ :=
  (period_selector_characterization _ _ (by decide)).1

/-- C1 counterexample: two bars, both of June 2024, reference 2024-06-20.
At least two bars exist and every bar matches the reference month, so the
claim requires the second-to-last bar — which the CLI selector indeed
returns — but the app variant's selector returns `none`. -/
theorem app_selector_no_fallback_cex :
    appSelectPrevMonth
        [⟨⟨2024, 6, 1⟩, some 1, some 1, some 1, some 1⟩,
         ⟨⟨2024, 6, 15⟩, some 2, some 2, some 2, some 2⟩] ⟨2024, 6, 20⟩ = none
    ∧ lastCompletedMonthRow
        [⟨⟨2024, 6, 1⟩, some 1, some 1, some 1, some 1⟩,
         ⟨⟨2024, 6, 15⟩, some 2, some 2, some 2, some 2⟩] ⟨2024, 6, 20⟩ =
      some ⟨⟨2024, 6, 1⟩, some 1, some 1, some 1, some 1⟩ :=
  ⟨rfl, rfl⟩

theorem fetchGo_all_raises (f : ℕ → FetchAttempt) :
    ∀ fuel i, (∀ j, j < fuel → f (i + j) = .raises) →
      fetchGo f i fuel = (none, List.range' (1 + i) fuel) := by
  intro fuel
  induction fuel with
  | zero => intro i _; rfl
  | succ n ih =>
    intro i hr
    have h0 : f i = .raises := by simpa using hr 0 (by omega)
    have ihh := ih (i + 1) (fun j hj => by
      have := hr (j + 1) (by omega)
      rwa [show i + (j + 1) = i + 1 + j by omega] at this)
    simp only [fetchGo, h0, ihh]
    rw [List.range'_succ, show 1 + (i + 1) = 1 + i + 1 by omega]

theorem fetchGo_stops (f : ℕ → FetchAttempt) :
    ∀ k fuel i, k < fuel → (∀ j, j < k → f (i + j) = .raises) →
      (f (i + k) = .empty → fetchGo f i fuel = (none, List.range' (1 + i) k))
      ∧ ∀ d, f (i + k) = .ok d →
          fetchGo f i fuel = (some d, List.range' (1 + i) k) := by
  intro k
  induction k with
  | zero =>
    intro fuel i hk _
    obtain ⟨m, rfl⟩ : ∃ m, fuel = m + 1 := ⟨fuel - 1, by omega⟩
    constructor
    · intro he
      rw [show i + 0 = i from rfl] at he
      simp only [fetchGo, he]
      rfl
    · intro d hd
      rw [show i + 0 = i from rfl] at hd
      simp only [fetchGo, hd]
      rfl
  | succ n ih =>
    intro fuel i hk hr
    obtain ⟨m, rfl⟩ : ∃ m, fuel = m + 1 := ⟨fuel - 1, by omega⟩
    have h0 : f i = .raises := by simpa using hr 0 (by omega)
    have ihm := ih m (i + 1) (by omega) (fun j hj => by
      have := hr (j + 1) (by omega)
      rwa [show i + (j + 1) = i + 1 + j by omega] at this)
    have harg : i + 1 + n = i + (n + 1) := by omega
    constructor
    · intro he
      rw [harg] at ihm
      have hrec := ihm.1 he
      simp only [fetchGo, h0, hrec]
      rw [List.range'_succ, show 1 + (i + 1) = 1 + i + 1 by omega]
    · intro d hd
      rw [harg] at ihm
      have hrec := ihm.2 d hd
      simp only [fetchGo, h0, hrec]
      rw [List.range'_succ, show 1 + (i + 1) = 1 + i + 1 by omega]

/-- C4 (amended): the CLI fetcher retries only raised exceptions, sleeping
`1 + attempt` seconds before each retry (linearly increasing backoff); an
empty or missing payload returns `NoData` immediately, without retrying;
and after exhausting all `max_retries + 1` attempts on exceptions it
returns `NoData` rather than raising. -/
theorem fetch_retry_behavior (f : ℕ → FetchAttempt) (mr k : ℕ)
    (hk : k ≤ mr) (hr : ∀ j, j < k → f j = .raises) :
    (f k = .empty → fetch_monthly_df f mr = (none, List.range' 1 k))
    ∧ (∀ d, f k = .ok d → fetch_monthly_df f mr = (some d, List.range' 1 k))
    ∧ ((∀ j, j ≤ mr → f j = .raises) →
        fetch_monthly_df f mr = (none, List.range' 1 (mr + 1))) := by
  have hs := fetchGo_stops f k (mr + 1) 0 (by omega)
    (fun j hj => by simpa using hr j hj)
  refine ⟨?_, ?_, ?_⟩
  · intro he
    exact hs.1 (by simpa using he)
  · intro d hd
    exact hs.2 d (by simpa using hd)
  · intro hall
    exact fetchGo_all_raises f (mr + 1) 0 fun j hj => by
      simpa using hall j (by omega)

/-- Witness for C4: one raised exception then a successful attempt, with
the default retry budget; the fetch succeeds after a single 1-second
backoff sleep. -/
theorem fetch_retry_behavior_witness :
    fetch_monthly_df (fun i => if i = 0 then .raises else .ok []) 2 =
      (some ([] : List BarRow), [1]) :=
  (fetch_retry_behavior _ 2 1 (by omega)
    (fun j hj => by
      have hj0 : j = 0 := by omega
      subst hj0
      rfl)).2.1 [] rfl

/-- C4 counterexample: attempt 0 yields an empty payload and attempt 1
would yield data, with `max_retries = 2`.  The claim says an empty payload
is retried up to the configured maximum — which would reach the data on
the next attempt — but `fetch_monthly_df` returns `None` after the single
attempt, performing no backoff sleep at all. -/
theorem fetch_empty_payload_no_retry_cex :
    fetch_monthly_df
        (fun i => if i = 0 then .empty
          else .ok [⟨⟨2024, 5, 31⟩, some 1, some 1, some 1, some 1⟩]) 2 =
      (none, [])
    ∧ (fun i => if i = 0 then FetchAttempt.empty
          else .ok [⟨⟨2024, 5, 31⟩, some 1, some 1, some 1, some 1⟩]) 1 =
        .ok [⟨⟨2024, 5, 31⟩, some 1, some 1, some 1, some 1⟩] :=
  ⟨rfl, rfl⟩

theorem dedupSeen_congr :
    ∀ (xs seen1 seen2 : List String), (∀ y, y ∈ seen1 ↔ y ∈ seen2) →
      dedupSeen seen1 xs = dedupSeen seen2 xs := by
  intro xs
  induction xs with
  | nil => intro _ _ _; rfl
  | cons t ts ih =>
    intro s1 s2 h
    simp only [dedupSeen]
    by_cases ht : t ∈ s1
    · rw [if_pos ht, if_pos ((h t).mp ht)]
      exact ih s1 s2 h
    · rw [if_neg ht, if_neg fun hc => ht ((h t).mpr hc)]
      rw [ih (t :: s1) (t :: s2) fun y => by simp [h y]]

theorem dedupSeen_sublist (seen xs : List String) :
    (dedupSeen seen xs).Sublist xs := by
  induction xs generalizing seen with
  | nil => exact List.Sublist.refl []
  | cons t ts ih =>
    simp only [dedupSeen]
    by_cases ht : t ∈ seen
    · rw [if_pos ht]
      exact (ih seen).cons t
    · rw [if_neg ht]
      exact (ih (t :: seen)).cons₂ t

theorem mem_dedupSeen :
    ∀ (xs seen : List String) (y : String),
      y ∈ dedupSeen seen xs ↔ y ∈ xs ∧ y ∉ seen := by
  intro xs
  induction xs with
  | nil => intro seen y; simp [dedupSeen]
  | cons t ts ih =>
    intro seen y
    simp only [dedupSeen]
    by_cases ht : t ∈ seen
    · rw [if_pos ht, ih]
      simp only [List.mem_cons]
      constructor
      · rintro ⟨hy, hn⟩
        exact ⟨Or.inr hy, hn⟩
      · rintro ⟨rfl | hy, hn⟩
        · exact absurd ht hn
        · exact ⟨hy, hn⟩
    · rw [if_neg ht]
      simp only [List.mem_cons]
      constructor
      · rintro (rfl | hy)
        · exact ⟨Or.inl rfl, ht⟩
        · obtain ⟨hy2, hn2⟩ := (ih (t :: seen) y).mp hy
          exact ⟨Or.inr hy2, fun hc => hn2 (List.mem_cons_of_mem t hc)⟩
      · rintro ⟨rfl | hy, hn⟩
        · exact Or.inl rfl
        · by_cases hyt : y = t
          · exact Or.inl hyt
          · refine Or.inr ((ih (t :: seen) y).mpr ⟨hy, ?_⟩)
            intro hc
            rcases List.mem_cons.mp hc with h1 | h1
            · exact hyt h1
            · exact hn h1

theorem dedupSeen_nodup : ∀ (xs seen : List String), (dedupSeen seen xs).Nodup := by
  intro xs
  induction xs with
  | nil => intro seen; exact List.nodup_nil
  | cons t ts ih =>
    intro seen
    simp only [dedupSeen]
    by_cases ht : t ∈ seen
    · rw [if_pos ht]
      exact ih seen
    · rw [if_neg ht]
      refine List.nodup_cons.mpr ⟨?_, ih (t :: seen)⟩
      intro hc
      exact ((mem_dedupSeen ts (t :: seen) t).mp hc).2 (List.mem_cons_self t seen)

theorem foldl_dedup_eq :
    ∀ (xs acc : List String),
      xs.foldl (fun acc x => if x ∈ acc then acc else acc ++ [x]) acc
        = acc ++ dedupSeen acc xs := by
  intro xs
  induction xs with
  | nil => intro acc; simp [dedupSeen]
  | cons t ts ih =>
    intro acc
    simp only [List.foldl_cons, dedupSeen]
    by_cases ht : t ∈ acc
    · rw [if_pos ht, if_pos ht, ih]
    · rw [if_neg ht, if_neg ht, ih (acc ++ [t]),
        dedupSeen_congr ts (acc ++ [t]) (t :: acc) fun y => by simp [or_comm]]
      simp

theorem fetch_nifty500_symbols_eq_spec (cells : List String) :
    fetch_nifty500_symbols cells
      = specDedupFirstSeen (normalizeSymbols cells) := by
  unfold fetch_nifty500_symbols specDedupFirstSeen
  rw [foldl_dedup_eq]
  simp

theorem setEnum_specDedupFirstSeen : SetEnum specDedupFirstSeen := by
  intro xs
  have h1 : specDedupFirstSeen xs = dedupSeen [] xs := by
    unfold specDedupFirstSeen
    rw [foldl_dedup_eq]
    simp
  constructor
  · rw [h1]
    exact dedupSeen_nodup xs []
  · intro y
    rw [h1, mem_dedupSeen]
    simp

theorem setEnum_reverse_spec :
    SetEnum fun xs => (specDedupFirstSeen xs).reverse := by
  intro xs
  constructor
  · rw [List.nodup_reverse]
    exact (setEnum_specDedupFirstSeen xs).1
  · intro y
    rw [List.mem_reverse]
    exact (setEnum_specDedupFirstSeen xs).2 y

/-- C8 (amended): the CLI resolver returns the normalized symbols deduped
with the first occurrence kept, in first-seen order — duplicate-free, a
subsequence of the normalized input, and equal to the spec's
first-seen-order dedup.  The app resolver (`list(set(...))`) returns the
same distinct symbols with no duplicates, but in the `set`'s enumeration
order, which guarantees no particular order. -/
theorem resolver_dedup_characterization (cells : List String)
    (enum : List String → List String) (he : SetEnum enum) :
    (fetch_nifty500_symbols cells).Nodup
    ∧ (fetch_nifty500_symbols cells).Sublist (normalizeSymbols cells)
    ∧ fetch_nifty500_symbols cells
        = specDedupFirstSeen (normalizeSymbols cells)
    ∧ (fetch_nifty500_symbols_app (.ok cells) enum).Nodup
    ∧ ∀ y, y ∈ fetch_nifty500_symbols_app (.ok cells) enum ↔
        y ∈ fetch_nifty500_symbols cells := by
  refine ⟨dedupSeen_nodup _ _, dedupSeen_sublist _ _,
    fetch_nifty500_symbols_eq_spec cells, (he (normalizeSymbols cells)).1, ?_⟩
  intro y
  have happ : fetch_nifty500_symbols_app (.ok cells) enum
      = enum (normalizeSymbols cells) := rfl
  rw [happ, (he (normalizeSymbols cells)).2 y]
  unfold fetch_nifty500_symbols
  rw [mem_dedupSeen]
  simp

/-- Witness for C8 with a concrete three-cell table (one duplicate) and
the first-seen enumeration as the set order. -/
theorem resolver_dedup_characterization_witness :
    (fetch_nifty500_symbols_app (.ok ["acme", "tcs.bo", "acme"])
      specDedupFirstSeen).Nodup :=
  (resolver_dedup_characterization ["acme", "tcs.bo", "acme"]
    specDedupFirstSeen setEnum_specDedupFirstSeen).2.2.2.1

/-- C8 counterexample: a legitimate `set` enumeration (reversed first-seen
order) makes the app resolver return `["BBB.NS", "AAA.NS"]` for the input
cells `["AAA", "BBB"]`, which is not a subsequence of the normalized
input in its original row order, contradicting the claimed first-seen
order preservation. -/
theorem app_set_order_not_first_seen_cex :
    SetEnum (fun xs => (specDedupFirstSeen xs).reverse)
    ∧ fetch_nifty500_symbols_app (.ok ["AAA", "BBB"])
        (fun xs => (specDedupFirstSeen xs).reverse) = ["BBB.NS", "AAA.NS"]
    ∧ normalizeSymbols ["AAA", "BBB"] = ["AAA.NS", "BBB.NS"]
    ∧ ¬ List.Sublist ["BBB.NS", "AAA.NS"] ["AAA.NS", "BBB.NS"] :=
  ⟨setEnum_reverse_spec, by decide, by decide, by decide⟩

/-- C7 (amended): when the constituent-list fetch or parse fails, the CLI
run aborts with exit code 1 and processes no universe, but the app
variant substitutes the hardcoded four-symbol fallback universe and
proceeds with it. -/
theorem universe_failure_behavior (enum : List String → List String) :
    cliResolveUniverse (.error ()) = .error 1
    ∧ fetch_nifty500_symbols_app (.error ()) enum = APP_FALLBACK
    ∧ APP_FALLBACK ≠ [] :=
  ⟨rfl, rfl, by decide⟩

/-- C7 counterexample: on a failed constituent fetch the app resolver
returns the non-empty hardcoded fallback list, which `run_scan` then
processes — a substitute universe, where the claim requires the whole run
to abort with no substitute processed. -/
theorem app_fallback_universe_cex :
    fetch_nifty500_symbols_app (.error ()) id =
      ["RELIANCE.NS", "TCS.NS", "INFY.NS", "HDFCBANK.NS"]
    ∧ ["RELIANCE.NS", "TCS.NS", "INFY.NS", "HDFCBANK.NS"]
        ≠ ([] : List String) :=
  ⟨rfl, by decide⟩

theorem roundHalfEven_eq_of_lt_half (q : ℚ) (n : ℤ) (h1 : (n : ℚ) ≤ q)
    (h2 : q < n + 1) (h3 : q - n < 1/2) : roundHalfEven q = n := by
  have hfl : ⌊q⌋ = n := by
    rw [Int.floor_eq_iff]
    exact ⟨h1, h2⟩
  unfold roundHalfEven
  rw [hfl, if_pos h3]

theorem roundHalfEven_eq_of_half_lt (q : ℚ) (n : ℤ) (h1 : (n : ℚ) ≤ q)
    (h2 : q < n + 1) (h3 : 1/2 < q - n) : roundHalfEven q = n + 1 := by
  have hfl : ⌊q⌋ = n := by
    rw [Int.floor_eq_iff]
    exact ⟨h1, h2⟩
  unfold roundHalfEven
  rw [hfl, if_neg (by linarith), if_pos h3]

/-- C3 (amended): the CLI pipeline retains a ticker iff the
integer-rounded S3 is nonzero and the percent range — which is computed
from these integer-rounded levels but is itself not rounded to two
decimals — is strictly below 6.5; the app retains a ticker iff its
(unrounded) S3 is nonzero and the percent range rounded to two decimals
is strictly below 6.5, so an unrounded percent range of 6.4999 is
excluded by the app. -/
theorem retention_filter_characterization (ticker : String)
    (h l c lastClose : ℚ) :
    (cliFilterPct h l c = none ↔
      roundHalfEven (compute_r3_s3 (roundHalfEven h : ℚ) (roundHalfEven l : ℚ)
        (roundHalfEven c : ℚ)).2 = 0)
    ∧ (∀ p, cliFilterPct h l c = some p →
        (cliRetain h l c = true ↔ p < 13/2))
    ∧ (cliFilterPct h l c = none → cliRetain h l c = false)
    ∧ (appRetain (appProcessPivot ticker h l c lastClose) = true ↔
        (app_s3 h l c ≠ 0
          ∧ roundTo2 ((app_r3 h l c - app_s3 h l c) / app_s3 h l c * 100)
            < 13/2)) := by
  refine ⟨?_, ?_, ?_, ?_⟩
  · by_cases hz : roundHalfEven (compute_r3_s3 (roundHalfEven h : ℚ)
        (roundHalfEven l : ℚ) (roundHalfEven c : ℚ)).2 = 0 <;>
      simp [cliFilterPct, hz]
  · intro p hp
    unfold cliRetain
    rw [hp]
    simp
  · intro hp
    unfold cliRetain
    rw [hp]
  · by_cases hz : app_s3 h l c = 0
    · simp [appProcessPivot, appRetain, hz]
    · simp [appProcessPivot, appRetain, hz]

/-- Witness for C3: a flat bar (H = L = C = 10) gives rounded S3 = 10 and
percent range 0, and the CLI retains it iff 0 < 6.5. -/
theorem retention_filter_characterization_witness :
    cliRetain 10 10 10 = true ↔ (0 : ℚ) < 13/2 := by
  have h10 : roundHalfEven ((10 : ℚ)) = 10 := by
    rw [show (10 : ℚ) = ((10 : ℤ) : ℚ) by norm_num, roundHalfEven_intCast]
  have hcs : compute_r3_s3 (roundHalfEven (10 : ℚ) : ℚ)
      (roundHalfEven (10 : ℚ) : ℚ) (roundHalfEven (10 : ℚ) : ℚ) = (10, 10) := by
    rw [h10]
    unfold compute_r3_s3
    norm_num
  have hfp : cliFilterPct 10 10 10 = some 0 := by
    simp only [cliFilterPct]
    rw [hcs]
    norm_num [h10]
  exact (retention_filter_characterization "X.NS" 10 10 10 0).2.1 0 hfp

/-- C3 counterexample: a bar whose unrounded percent range is exactly
6.4999 — strictly below the 6.5 threshold, so the claim requires
inclusion — is excluded by the app variant: `process_ticker` stores
`round(pct_range, 2) = 6.5` and `run_scan`'s strict `< 6.5` test fails. -/
theorem app_filter_excludes_6_4999_cex :
    specPercentRange (100 + 64999/5500) 100 (2064999/20000)
      = some (64999/10000)
    ∧ ((64999 : ℚ)/10000 < 13/2)
    ∧ appFilterValue "X.NS" (100 + 64999/5500) 100 (2064999/20000) 0
      = some (13/2)
    ∧ appRetain (appProcessPivot "X.NS" (100 + 64999/5500) 100
        (2064999/20000) 0) = false := by
  have e3 : app_s3 (100 + 64999/5500) 100 (2064999/20000) = 100 := by
    unfold app_s3 CAM_MULT
    norm_num
  have e1 : app_r3 (100 + 64999/5500) 100 (2064999/20000) = 1064999/10000 := by
    unfold app_r3 CAM_MULT
    norm_num
  have epct : (app_r3 (100 + 64999/5500) 100 (2064999/20000)
      - app_s3 (100 + 64999/5500) 100 (2064999/20000))
      / app_s3 (100 + 64999/5500) 100 (2064999/20000) * 100 = 64999/10000 := by
    rw [e1, e3]
    norm_num
  have hrpct : roundTo2 ((64999 : ℚ)/10000) = 13/2 := by
    unfold roundTo2
    rw [show (64999 : ℚ)/10000 * 100 = 64999/100 by norm_num,
      roundHalfEven_eq_of_half_lt (64999/100) 649 (by norm_num) (by norm_num)
        (by norm_num)]
    norm_num
  refine ⟨?_, by norm_num, ?_, ?_⟩
  · unfold specPercentRange CAM_MULT
    rw [if_neg (by norm_num)]
    norm_num
  · unfold appFilterValue appProcessPivot
    rw [if_neg (by rw [e3]; norm_num)]
    simp only [Option.map_some]
    rw [epct, hrpct]
    rfl
  · unfold appRetain appProcessPivot
    rw [if_neg (by rw [e3]; norm_num)]
    show decide (roundTo2 ((app_r3 (100 + 64999/5500) 100 (2064999/20000)
        - app_s3 (100 + 64999/5500) 100 (2064999/20000))
        / app_s3 (100 + 64999/5500) 100 (2064999/20000) * 100) < 13/2) = false
    rw [epct, hrpct]
    simp

/-- C9 (amended): the app's ranking is Python's stable sort by `pct_range`
alone: the output is a permutation of the retained results, sorted
ascending by `pct_range`, and results sharing a `pct_range` value keep
their pre-sort relative order — there is no tie-break by ticker symbol.
(The CLI likewise sorts by `pct_range_r3` only.) -/
theorem app_ranking_sort_properties (rs : List AppResult) :
    (appSortResults rs).Perm rs
    ∧ (appSortResults rs).Pairwise (fun a b => a.pct_range ≤ b.pct_range)
    ∧ ∀ k : ℚ, (appSortResults rs).filter (fun r => r.pct_range == k)
        = rs.filter fun r => r.pct_range == k := by
  refine ⟨sortLe_perm _ _, ?_, ?_⟩
  · have htot : ∀ a b : AppResult, pctLe a b = true ∨ pctLe b a = true := by
      intro a b
      unfold pctLe
      rcases le_total a.pct_range b.pct_range with hh | hh
      · exact Or.inl (by simpa using hh)
      · exact Or.inr (by simpa using hh)
    have htrans : ∀ a b c : AppResult,
        pctLe a b = true → pctLe b c = true → pctLe a c = true := by
      intro a b c hab hbc
      unfold pctLe at hab hbc ⊢
      simp only [decide_eq_true_eq] at hab hbc ⊢
      exact le_trans hab hbc
    exact (sortLe_pairwise htot htrans rs).imp fun hab => by
      simpa [pctLe] using hab
  · intro k
    apply sortLe_filter_stable
    intro a b hab hpa
    simp only [pctLe, decide_eq_false_iff_not, not_le] at hab
    simp only [beq_iff_eq] at hpa
    have hbk : b.pct_range ≠ k := by
      rw [← hpa]
      exact ne_of_lt hab
    simpa using hbk

/-- C9 counterexample: two retained results with equal `pct_range = 5`,
tickers ZZZ.NS then AAA.NS; the claimed ticker-ascending tie-break would
put AAA.NS first, but the app's sort keeps them in pre-sort order. -/
theorem ranking_no_ticker_tiebreak_cex :
    appSortResults
        [⟨"ZZZ.NS", 106, 94, 5, 100⟩, ⟨"AAA.NS", 106, 94, 5, 100⟩]
      = [⟨"ZZZ.NS", 106, 94, 5, 100⟩, ⟨"AAA.NS", 106, 94, 5, 100⟩]
    ∧ ([⟨"ZZZ.NS", 106, 94, 5, 100⟩, ⟨"AAA.NS", 106, 94, 5, 100⟩]
          : List AppResult)
        ≠ [⟨"AAA.NS", 106, 94, 5, 100⟩, ⟨"ZZZ.NS", 106, 94, 5, 100⟩] := by
  constructor
  · show insertLe pctLe ⟨"ZZZ.NS", 106, 94, 5, 100⟩
      (insertLe pctLe ⟨"AAA.NS", 106, 94, 5, 100⟩ []) = _
    have hle : pctLe ⟨"ZZZ.NS", 106, 94, 5, 100⟩
        ⟨"AAA.NS", 106, 94, 5, 100⟩ = true := by
      unfold pctLe
      simp
    simp [insertLe, hle]
  · decide

/-- C6: evaluation at the failing input.  In a three-ticker universe the
middle ticker's selected bar lacks its High field, so `main` computes
`round(float(row.get("High", float("nan"))))`, which raises `ValueError`;
the exception is uncaught inside the per-ticker loop, so the whole run
aborts and the third ticker is never processed — where the claim requires
the failure to be recorded per ticker and the run to complete. -/
theorem cli_run_aborts_on_missing_field :
    cliRun
      [("GOOD.NS", none),
       ("BAD.NS", some [⟨⟨2024, 5, 31⟩, none, some 9, some 9, some 10⟩]),
       ("GOOD2.NS", none)]
      ⟨2024, 6, 15⟩ = .error () := rfl

/-- C5 (amended): rounding does not happen only at the presentation
boundary.  The app computes pivots from unrounded inputs but its filter
consumes the percent range already rounded to two decimals
(`appFilterValue = roundTo2 ∘ specPercentRange`).  The CLI's filter value
depends only on the integer-rounded OHLC inputs, is computed from the
integer-rounded R3/S3, and only its two-decimal rounding happens after
the filter: the retention test compares the un-2-decimal-rounded value
`p`, and the output row stores `roundTo2 p`. -/
theorem rounding_boundary_characterization (ticker : String)
    (h l c lastClose : ℚ) :
    appFilterValue ticker h l c lastClose
      = (specPercentRange h l c).map roundTo2
    ∧ cliFilterPct h l c
      = cliFilterPct (roundHalfEven h : ℚ) (roundHalfEven l : ℚ)
          (roundHalfEven c : ℚ)
    ∧ ∀ (b : BarRow) (now : MDate) (hq lq cq oq : ℚ),
        b.highF = some hq → b.lowF = some lq → b.openF = some oq →
        b.closeF = some cq → sameYM b.date now = false →
        cliProcessTicker (some [b]) now = .ok (
          match cliFilterPct hq lq cq with
          | none => .filteredOut
          | some p =>
            if 13/2 ≤ p then .filteredOut
            else .success ⟨b.date, roundHalfEven oq, roundHalfEven hq,
              roundHalfEven lq, roundHalfEven cq,
              roundHalfEven (compute_r3_s3 (roundHalfEven hq : ℚ)
                (roundHalfEven lq : ℚ) (roundHalfEven cq : ℚ)).1,
              roundHalfEven (compute_r3_s3 (roundHalfEven hq : ℚ)
                (roundHalfEven lq : ℚ) (roundHalfEven cq : ℚ)).2,
              roundTo2 p⟩) := by
  refine ⟨?_, ?_, ?_⟩
  · simp only [appFilterValue, appProcessPivot, specPercentRange,
      app_r3, app_s3]
    by_cases hz : c - (h - l) * CAM_MULT / 4 = 0
    · simp [hz]
    · simp [hz]
  · simp only [cliFilterPct, roundHalfEven_intCast]
  · intro b now hq lq cq oq hh hl2 ho2 hc2 hym
    have hsel : lastCompletedMonthRow [b] now = some b := by
      unfold lastCompletedMonthRow
      simp [sortLe, insertLe, List.filter, hym]
    have hred : cliProcessTicker (some [b]) now
        = match lastCompletedMonthRow [b] now with
          | none => .ok (.errRow "no_completed_month")
          | some row => cliProcessRow row := rfl
    rw [hred, hsel]
    unfold cliProcessRow
    simp only [hh, hl2, ho2, hc2, pyRoundNan]
    by_cases hz : roundHalfEven (compute_r3_s3 (roundHalfEven hq : ℚ)
        (roundHalfEven lq : ℚ) (roundHalfEven cq : ℚ)).2 = 0
    · have hnone : cliFilterPct hq lq cq = none := by
        simp [cliFilterPct, hz]
      rw [hnone, if_pos hz]
    · have hsome : cliFilterPct hq lq cq
          = some (((roundHalfEven (compute_r3_s3 (roundHalfEven hq : ℚ)
              (roundHalfEven lq : ℚ) (roundHalfEven cq : ℚ)).1 : ℚ)
            - (roundHalfEven (compute_r3_s3 (roundHalfEven hq : ℚ)
              (roundHalfEven lq : ℚ) (roundHalfEven cq : ℚ)).2 : ℚ))
            / (roundHalfEven (compute_r3_s3 (roundHalfEven hq : ℚ)
              (roundHalfEven lq : ℚ) (roundHalfEven cq : ℚ)).2 : ℚ)
            * 100) := by
        simp [cliFilterPct, hz]
      rw [hsome, if_neg hz]
      by_cases hp : (13 : ℚ)/2 ≤ ((roundHalfEven (compute_r3_s3
            (roundHalfEven hq : ℚ) (roundHalfEven lq : ℚ)
            (roundHalfEven cq : ℚ)).1 : ℚ)
          - (roundHalfEven (compute_r3_s3 (roundHalfEven hq : ℚ)
            (roundHalfEven lq : ℚ) (roundHalfEven cq : ℚ)).2 : ℚ))
          / (roundHalfEven (compute_r3_s3 (roundHalfEven hq : ℚ)
            (roundHalfEven lq : ℚ) (roundHalfEven cq : ℚ)).2 : ℚ) * 100
      · rw [if_pos hp]
        simp [hp]
      · rw [if_neg hp]
        simp [hp]

/-- Witness for C5: the single-bar pipeline characterization instantiated
at a complete May-2024 bar with H=10.4, L=10, C=10.2, O=10. -/
theorem rounding_boundary_characterization_witness :
    cliProcessTicker
        (some [⟨⟨2024, 5, 31⟩, some (52/5), some 10, some 10, some (51/5)⟩])
        ⟨2024, 6, 15⟩
      = .ok (match cliFilterPct (52/5) 10 (51/5) with
        | none => CliOutcome.filteredOut
        | some p =>
          if 13/2 ≤ p then CliOutcome.filteredOut
          else .success ⟨⟨2024, 5, 31⟩, roundHalfEven (10 : ℚ),
            roundHalfEven ((52 : ℚ)/5), roundHalfEven (10 : ℚ),
            roundHalfEven ((51 : ℚ)/5),
            roundHalfEven (compute_r3_s3 (roundHalfEven ((52 : ℚ)/5) : ℚ)
              (roundHalfEven (10 : ℚ) : ℚ)
              (roundHalfEven ((51 : ℚ)/5) : ℚ)).1,
            roundHalfEven (compute_r3_s3 (roundHalfEven ((52 : ℚ)/5) : ℚ)
              (roundHalfEven (10 : ℚ) : ℚ)
              (roundHalfEven ((51 : ℚ)/5) : ℚ)).2,
            roundTo2 p⟩) :=
  (rounding_boundary_characterization "X.NS" 0 0 0 0).2.2
    ⟨⟨2024, 5, 31⟩, some (52/5), some 10, some 10, some (51/5)⟩
    ⟨2024, 6, 15⟩ (52/5) 10 (51/5) 10 rfl rfl rfl rfl rfl

theorem appFilter_at_64999 :
    appFilterValue "X.NS" (100 + 64999/5500) 100 (2064999/20000) 0
      = some (13/2) := by
  have e3 : app_s3 (100 + 64999/5500) 100 (2064999/20000) = 100 := by
    unfold app_s3 CAM_MULT
    norm_num
  have e1 : app_r3 (100 + 64999/5500) 100 (2064999/20000) = 1064999/10000 := by
    unfold app_r3 CAM_MULT
    norm_num
  have epct : (app_r3 (100 + 64999/5500) 100 (2064999/20000)
      - app_s3 (100 + 64999/5500) 100 (2064999/20000))
      / app_s3 (100 + 64999/5500) 100 (2064999/20000) * 100
      = 64999/10000 := by
    rw [e1, e3]
    norm_num
  have hrpct : roundTo2 ((64999 : ℚ)/10000) = 13/2 := by
    unfold roundTo2
    rw [show (64999 : ℚ)/10000 * 100 = 64999/100 by norm_num,
      roundHalfEven_eq_of_half_lt (64999/100) 649 (by norm_num) (by norm_num)
        (by norm_num)]
    norm_num
  unfold appFilterValue appProcessPivot
  rw [if_neg (by rw [e3]; norm_num)]
  simp only [Option.map_some]
  rw [epct, hrpct]
  rfl

theorem specPct_at_64999 :
    specPercentRange (100 + 64999/5500) 100 (2064999/20000)
      = some (64999/10000) := by
  unfold specPercentRange CAM_MULT
  rw [if_neg (by norm_num)]
  norm_num

/-- C5 counterexample.  At raw H=10.4, L=10, C=10.2 the CLI's filter value
is 0 — it is computed from the integer-rounded h=l=c=10 — while the
unrounded percent range the claim prescribes is 2200/1009 ≈ 2.18; and at
the 6.4999 input the app's filter consumes the already-2-decimal-rounded
value 6.5, not the unrounded 6.4999. -/
theorem filter_uses_rounded_values_cex :
    cliFilterPct (52/5) 10 (51/5) = some 0
    ∧ specPercentRange (52/5) 10 (51/5) = some (2200/1009)
    ∧ (some (0 : ℚ) ≠ some ((2200 : ℚ)/1009))
    ∧ appFilterValue "X.NS" (100 + 64999/5500) 100 (2064999/20000) 0
      = some (13/2)
    ∧ specPercentRange (100 + 64999/5500) 100 (2064999/20000)
      = some (64999/10000)
    ∧ (some ((13 : ℚ)/2) ≠ some ((64999 : ℚ)/10000)) := by
  have h104 : roundHalfEven ((52 : ℚ)/5) = 10 :=
    roundHalfEven_eq_of_lt_half _ 10 (by norm_num) (by norm_num) (by norm_num)
  have h102 : roundHalfEven ((51 : ℚ)/5) = 10 :=
    roundHalfEven_eq_of_lt_half _ 10 (by norm_num) (by norm_num) (by norm_num)
  have h10 : roundHalfEven ((10 : ℚ)) = 10 := by
    rw [show (10 : ℚ) = ((10 : ℤ) : ℚ) by norm_num, roundHalfEven_intCast]
  have hcs : compute_r3_s3 (roundHalfEven ((52 : ℚ)/5) : ℚ)
      (roundHalfEven ((10 : ℚ)) : ℚ) (roundHalfEven ((51 : ℚ)/5) : ℚ)
      = (10, 10) := by
    rw [h104, h10, h102]
    unfold compute_r3_s3
    norm_num
  refine ⟨?_, ?_, by norm_num, appFilter_at_64999, specPct_at_64999,
    by norm_num⟩
  · simp only [cliFilterPct]
    rw [hcs]
    norm_num [h10]
  · unfold specPercentRange CAM_MULT
    rw [if_neg (by norm_num)]
    norm_num
